import Mathlib

/-!
Shallow embedding of the syscall-interception engine of the `interceptor`
repository (Rust, x86_64 Linux).  The definitions below are translated from
the source files `src/lib.rs` and `src/ptr.rs` of the repository:

* the tracer control loop `Interceptor::on_stop` (register rewriting,
  blocked-call map, post-hook dispatch),
* the tracee-memory readers and writers of `ptr.rs`
  (`ReadRemote::read_bytes_with_nul`, the `Read` instance for
  `*const *const c_char`, the `Write` instance generated by `ptr_impl!`),
* the remote bump allocator (`RemoteMem::new`, `alloc_remote_mem`), and
* the machine-integer marshalling generated by `not_ptr_impl!`.

Machine integers are modelled as `Nat` (64-bit register values, bytes) and
`Int` (signed views), with explicit `% 2 ^ w` where Rust `as` casts
truncate.  Tracee memory is a total function `Nat → Nat` from addresses to
byte values; a partially failing `read_memory_mut` is modelled by an
oracle `readChunk : Nat → List Nat` giving the bytes actually obtained for
an 8-byte read at an address.  Randomness (`rand::thread_rng().gen::<u16>()`)
and the file-read used to discover the remote memory block are modelled as
oracles supplied as arguments.  Loops of the source that are bounded only
by data found in memory take an explicit fuel argument.
-/

/-! ### Registers (`pete::Registers`, the fields used by `on_stop`) -/

structure Regs where
  orig_rax : Nat
  rax : Nat
  rdi : Nat
  rsi : Nat
  rdx : Nat
  r10 : Nat
  r8 : Nat
  r9 : Nat
  rip : Nat
deriving DecidableEq

/-! ### The blocked-call map (`HashMap<u64, u64>` in `Interceptor.block_calls`)

Modelled as an association list whose `insert` replaces any existing
binding of the key, matching `HashMap::insert`, and whose `remove`
returns the removed value, matching `HashMap::remove`. -/

def mapLookup : List (Nat × Nat) → Nat → Option Nat
  | [], _ => none
  | (k, v) :: rest, key => if k = key then some v else mapLookup rest key

def mapErase (m : List (Nat × Nat)) (key : Nat) : List (Nat × Nat) :=
  m.filter (fun p => p.1 != key)

def mapInsert (m : List (Nat × Nat)) (key v : Nat) : List (Nat × Nat) :=
  (key, v) :: mapErase m key

/-! ### The tracer control loop (`Interceptor::on_stop`, src/lib.rs:188-271)

The dispatch of the registered descriptor is abstracted into the result of
the matched pre-hook (`pre`, `none` when no descriptor matches at an entry
stop) and the matched post-hook (`post`, `none` when no descriptor matches
at an exit stop).  `rnd` is the oracle for `rand::thread_rng().gen::<u16>()`;
the source widens the `u16` to `u64`, modelled as `rnd % 65536`. -/

inductive ReturnVariantWrapper where
  | PackedArgs :
      Option Nat × Option Nat × Option Nat × Option Nat × Option Nat × Option Nat →
      ReturnVariantWrapper
  | Normal : Nat → ReturnVariantWrapper

inductive StopKind where
  | syscallEnter
  | syscallExit
  | other

/-- The effect of one `set_reg!` expansion: `if let Some(r) = r { regs.f = r }`. -/
def setReg (cur : Nat) : Option Nat → Nat
  | some v => v
  | none => cur

def on_stop (block_calls : List (Nat × Nat)) (regs : Regs) (stop : StopKind)
    (pre : Option ReturnVariantWrapper) (post : Option (Nat → Nat)) (rnd : Nat) :
    List (Nat × Nat) × Regs :=
  match stop with
  | .syscallEnter =>
    match pre with
    | none => (block_calls, regs)
    | some (.PackedArgs (r1, r2, r3, r4, r5, r6)) =>
      (block_calls,
        { regs with
          rdi := setReg regs.rdi r1
          rsi := setReg regs.rsi r2
          rdx := setReg regs.rdx r3
          r10 := setReg regs.r10 r4
          r8 := setReg regs.r8 r5
          r9 := setReg regs.r9 r6 })
    | some (.Normal r) =>
      let sysno := 512 + rnd % 65536
      (mapInsert block_calls sysno r, { regs with orig_rax := sysno })
  | .syscallExit =>
    match mapLookup block_calls regs.orig_rax with
    | some ret => (mapErase block_calls regs.orig_rax, { regs with rax := ret })
    | none =>
      match post with
      | some p => (block_calls, { regs with rax := p regs.rax })
      | none => (block_calls, regs)
  | .other => (block_calls, regs)

/-! ### Map lemmas -/

theorem mapLookup_insert_self (m : List (Nat × Nat)) (k v : Nat) :
    mapLookup (mapInsert m k v) k = some v := by
  simp [mapInsert, mapLookup]

theorem mapLookup_erase_self (m : List (Nat × Nat)) (k : Nat) :
    mapLookup (mapErase m k) k = none := by
  induction m with
  | nil => rfl
  | cons hd tl ih =>
    obtain ⟨k0, v0⟩ := hd
    by_cases h : k0 = k
    · simpa [mapErase, List.filter_cons, h] using ih
    · simpa [mapErase, List.filter_cons, h, mapLookup] using ih

theorem mapLookup_erase_ne (m : List (Nat × Nat)) (k key : Nat) (h : key ≠ k) :
    mapLookup (mapErase m k) key = mapLookup m key := by
  induction m with
  | nil => rfl
  | cons hd tl ih =>
    obtain ⟨k0, v0⟩ := hd
    have hks : k ≠ key := fun hh => h hh.symm
    by_cases hk : k0 = k
    · have hkey : k0 ≠ key := fun hh => h (hk ▸ hh.symm ▸ rfl)
      simp only [mapErase, List.filter_cons] at ih ⊢
      simp [hk, mapLookup, hkey, ih, hks]
    · by_cases hkey : k0 = key
      · simp only [mapErase, List.filter_cons] at ih ⊢
        simp [hk, mapLookup, hkey, h]
      · simp only [mapErase, List.filter_cons] at ih ⊢
        simp [hk, mapLookup, hkey, ih]

theorem mapLookup_insert_ne (m : List (Nat × Nat)) (k v key : Nat) (h : key ≠ k) :
    mapLookup (mapInsert m k v) key = mapLookup m key := by
  have hk : k ≠ key := fun hh => h hh.symm
  simp only [mapInsert, mapLookup, if_neg hk]
  exact mapLookup_erase_ne m k key h

/-- A concrete register file used by the concrete evaluations below. -/
def regs0 : Regs := ⟨0, 0, 0, 0, 0, 0, 0, 0, 0⟩

/-! ### Tracee memory I/O (src/ptr.rs)

`read_memory_mut` reads up to 8 bytes at an address; the bytes actually
obtained are modelled by an oracle `readChunk : Nat → List Nat` (`[]` for a
failed read, fewer than 8 entries for a partial read).  A fully functional
memory `mem : Nat → Nat` induces the always-succeeding oracle `memChunk`. -/

def memChunk (mem : Nat → Nat) (a : Nat) : List Nat :=
  [mem a, mem (a + 1), mem (a + 2), mem (a + 3),
   mem (a + 4), mem (a + 5), mem (a + 6), mem (a + 7)]

/-- The loop body of `ReadRemote::read_bytes_with_nul` (src/ptr.rs:216-241):
read an 8-byte chunk, stop on a failed read, stop at (and include) the
first NUL, otherwise advance `offset` by 8 and keep the chunk.  `fuel`
bounds the number of chunk reads (the source loop is bounded only by the
data in tracee memory). -/
def rbwn_go (readChunk : Nat → List Nat) (addr : Nat) : Nat → Nat → List Nat
  | _, 0 => []
  | offset, fuel + 1 =>
    let buf := readChunk (addr + offset)
    if buf = [] then []
    else
      match buf.findIdx? (fun x => x == 0) with
      | some i => buf.take (i + 1)
      | none => buf ++ rbwn_go readChunk addr (offset + 8) fuel

/-- `ReadRemote::read_bytes_with_nul`: the guard `if addr != 0` makes the
result empty, with no memory access, for a NULL tracee pointer. -/
def read_bytes_with_nul (readChunk : Nat → List Nat) (addr : Nat) (fuel : Nat) : List Nat :=
  if addr = 0 then [] else rbwn_go readChunk addr 0 fuel

/-- The host-side mirror of one pointer argument (`MayBePtr<Vec<u8>>`):
the copied bytes and the original tracee address. -/
structure MayBePtr where
  inner : List Nat
  origin : Nat
deriving DecidableEq

/-- The `Read` impl generated by `ptr_impl!` for `*const c_char` / `*mut c_char`
(src/ptr.rs:245-254). -/
def ptr_read (readChunk : Nat → List Nat) (u : Nat) (fuel : Nat) : MayBePtr :=
  { inner := read_bytes_with_nul readChunk u fuel, origin := u }

/-- `Tracee::write_memory`: overwrite `data.length` bytes starting at `addr`. -/
def write_memory (mem : Nat → Nat) (addr : Nat) (data : List Nat) : Nat → Nat :=
  fun a => if addr ≤ a ∧ a < addr + data.length then data.getD (a - addr) 0 else mem a

/-! ### Remote memory allocator (src/ptr.rs:13-46 and 294-317) -/

structure RemoteMem where
  base : Nat
  offset : Nat
  max : Nat
deriving DecidableEq

/-- `inter_mem::MEM_BLOCK_SIZE` (mem/src/lib.rs): 8 KiB. -/
def MEM_BLOCK_SIZE : Nat := 1024 * 8

/-- The retry loop of `RemoteMem::new` (src/ptr.rs:20-45).  `readAt k` is the
oracle for the `k`-th attempt to read the discovery file (the temp-dir path
with the tracee PID as extension); `some base` is a successful read.  The
source counts with an `i32` starting at `retry = 5` and retries while
`retry >= 0`; `retryP1` encodes `retry + 1` as a `Nat` (so `retry >= 0`
becomes `retryP1 > 0` and the initial value is 6).  The result is the
decoded base (or `none` for the `panic!`) paired with the number of read
attempts performed.  The 50 ms sleeps are not modelled. -/
def rm_new_go (readAt : Nat → Option Nat) : Nat → Nat → Option Nat × Nat
  | attempt, retryP1 =>
    match readAt attempt with
    | some base => (some base, attempt + 1)
    | none =>
      match retryP1 with
      | r + 1 => rm_new_go readAt (attempt + 1) r
      | 0 => (none, attempt + 1)

/-- `RemoteMem::new`: on success, `offset = 0` and `max = MEM_BLOCK_SIZE`. -/
def remote_mem_new (readAt : Nat → Option Nat) : Option RemoteMem × Nat :=
  match rm_new_go readAt 0 6 with
  | (some base, n) => (some ⟨base, 0, MEM_BLOCK_SIZE⟩, n)
  | (none, n) => (none, n)

/-- `alloc_remote_mem` (src/ptr.rs:294-317), after lazy initialisation:
`none` models the `panic!("changed content is too large")`. -/
def alloc_remote_mem (mem : RemoteMem) (size : Nat) : Option (Nat × RemoteMem) :=
  if size > mem.max then none
  else
    let addr := mem.base + mem.offset
    if mem.offset + size > mem.max then some (addr, { mem with offset := 0 })
    else some (addr, { mem with offset := mem.offset + size })

/-! ### C-string writeback (the `Write` impl generated by `ptr_impl!`,
src/ptr.rs:262-290) -/

/-- `CStr::from_ptr(v).to_bytes_with_nul()` over the host heap `hostMem`. -/
def cstr_bytes_with_nul (hostMem : Nat → Nat) (p : Nat) : Nat → List Nat
  | 0 => []
  | fuel + 1 =>
    let b := hostMem p
    if b = 0 then [0] else b :: cstr_bytes_with_nul hostMem (p + 1) fuel

/-- The `Write` impl for C-string pointers.  `selfPtr` is the host address
of the mirror buffer (`self.inner.as_ptr()`), `v` the pointer returned by
the hook.  In-place case (`v = selfPtr`): write the mirror back to the
original tracee address and return it.  Pointer-changed case: copy the new
host C-string into freshly allocated remote memory.  `none` models the
allocator `panic!`; the lazy initialisation of the allocator is modelled
by `remote_mem_new` separately. -/
def mbp_write (mbp : MayBePtr) (mem : Nat → Nat) (rm : RemoteMem) (hostMem : Nat → Nat)
    (selfPtr : Nat) (hostFuel : Nat) (v : Option Nat) :
    Option ((Nat → Nat) × RemoteMem × Option Nat) :=
  match v with
  | none => some (mem, rm, none)
  | some v =>
    if selfPtr = v then
      some (write_memory mem mbp.origin mbp.inner, rm, some mbp.origin)
    else
      let c := cstr_bytes_with_nul hostMem v hostFuel
      (alloc_remote_mem rm c.length).map fun p => (write_memory mem p.1 c, p.2, some p.1)

/-! ### The `Read` impl for `*const *const c_char` (src/ptr.rs:92-121)

The outer walk reads one 8-byte little-endian pointer per step; each
pointed C-string is slurped with `read_bytes_with_nul`.  An empty slurp
(NULL element pointer, or failed read) appends the single extra NUL byte
and stops. -/

/-- `u64::from_le_bytes` of the 8 bytes at `a` of a fully readable memory. -/
def readU64le (mem : Nat → Nat) (a : Nat) : Nat :=
  mem a + 256 * (mem (a + 1) + 256 * (mem (a + 2) + 256 * (mem (a + 3) +
    256 * (mem (a + 4) + 256 * (mem (a + 5) + 256 * (mem (a + 6) + 256 * mem (a + 7)))))))

def ptr_array_go (mem : Nat → Nat) (u : Nat) (fuelI : Nat) : Nat → Nat → List Nat
  | _, 0 => []
  | offset, fuelO + 1 =>
    let p := readU64le mem (u + offset)
    let pdata := read_bytes_with_nul (memChunk mem) p fuelI
    if pdata = [] then [0]
    else pdata ++ ptr_array_go mem u fuelI (offset + 8) fuelO

def ptr_array_read (mem : Nat → Nat) (u : Nat) (fuelO fuelI : Nat) : MayBePtr :=
  { inner := ptr_array_go mem u fuelI 0 fuelO, origin := u }

/-! ### Machine-integer marshalling (`not_ptr_impl!`, src/ptr.rs:328-368)

`Read` is `u as $t` on the raw `u64` register value; `Write` is
`v as u64` on the hook's returned value.  Rust `as` casts truncate to the
target width and reinterpret; sign-extension happens on the way back up. -/

/-- `u as i<w>`: truncate to `w` bits, reinterpret as two's complement. -/
def toSigned (w u : Nat) : Int :=
  let m := u % 2 ^ w
  if m < 2 ^ (w - 1) then (m : Int) else (m : Int) - 2 ^ w

/-- `x as u64` on a signed value: two's complement modulo `2 ^ 64`. -/
def toU64 (x : Int) : Nat := (x % 2 ^ 64).toNat

def i8_read (u : Nat) : Int := toSigned 8 u
def i8_write (x : Int) : Nat := toU64 x
def i16_read (u : Nat) : Int := toSigned 16 u
def i16_write (x : Int) : Nat := toU64 x
def i32_read (u : Nat) : Int := toSigned 32 u
def i32_write (x : Int) : Nat := toU64 x
def i64_read (u : Nat) : Int := toSigned 64 u
def i64_write (x : Int) : Nat := toU64 x
def isize_read (u : Nat) : Int := toSigned 64 u
def isize_write (x : Int) : Nat := toU64 x
def u8_read (u : Nat) : Nat := u % 2 ^ 8
def u8_write (x : Nat) : Nat := x % 2 ^ 64
def u16_read (u : Nat) : Nat := u % 2 ^ 16
def u16_write (x : Nat) : Nat := x % 2 ^ 64
def u32_read (u : Nat) : Nat := u % 2 ^ 32
def u32_write (x : Nat) : Nat := x % 2 ^ 64
def u64_read (u : Nat) : Nat := u % 2 ^ 64
def u64_write (x : Nat) : Nat := x % 2 ^ 64
def usize_read (u : Nat) : Nat := u % 2 ^ 64
def usize_write (x : Nat) : Nat := x % 2 ^ 64

/-- Sign-extension of a `w`-bit two's-complement value `m` (for `m < 2 ^ w`)
into a 64-bit register value: the value produced by `v as u64` after the
mirror held `u as i<w>`. -/
def signExtend64 (w m : Nat) : Nat :=
  if m < 2 ^ (w - 1) then m else 2 ^ 64 - 2 ^ w + m

/-! ### List access lemmas -/

theorem getD_take_lt {α : Type} (l : List α) (n j : Nat) (d : α)
    (h : j < (l.take n).length) : (l.take n).getD j d = l.getD j d := by
  induction l generalizing n j with
  | nil => simp at h
  | cons x xs ih =>
    cases n with
    | zero => simp at h
    | succ n =>
      cases j with
      | zero => simp
      | succ j =>
        simp only [List.take_succ_cons, List.getD_cons_succ]
        exact ih n j (by simpa using h)

theorem getD_append_lt {α : Type} (l1 l2 : List α) (j : Nat) (d : α)
    (h : j < l1.length) : (l1 ++ l2).getD j d = l1.getD j d := by
  induction l1 generalizing j with
  | nil => simp at h
  | cons x xs ih =>
    cases j with
    | zero => simp
    | succ j =>
      simp only [List.cons_append, List.getD_cons_succ]
      exact ih j (by simpa using h)

theorem getD_append_ge {α : Type} (l1 l2 : List α) (j : Nat) (d : α)
    (h : l1.length ≤ j) : (l1 ++ l2).getD j d = l2.getD (j - l1.length) d := by
  induction l1 generalizing j with
  | nil => simp
  | cons x xs ih =>
    cases j with
    | zero => simp at h
    | succ j =>
      simp only [List.cons_append, List.getD_cons_succ, List.length_cons]
      rw [ih j (by simpa using h)]
      congr 1
      omega

theorem memChunk_getD (mem : Nat → Nat) (a j : Nat) (h : j < 8) :
    (memChunk mem a).getD j 0 = mem (a + j) := by
  interval_cases j <;> simp [memChunk]

/-! ### The mirror produced by `read_bytes_with_nul` is a byte-for-byte
prefix of tracee memory. -/

theorem rbwn_go_mem_bytes (mem : Nat → Nat) (addr : Nat) :
    ∀ fuel offset j, j < (rbwn_go (memChunk mem) addr offset fuel).length →
      (rbwn_go (memChunk mem) addr offset fuel).getD j 0 = mem (addr + offset + j) := by
  intro fuel
  induction fuel with
  | zero => intro offset j h; simp [rbwn_go] at h
  | succ n ih =>
    intro offset j h
    have hne : memChunk mem (addr + offset) ≠ [] := by simp [memChunk]
    simp only [rbwn_go, if_neg hne] at h ⊢
    cases hfi : (memChunk mem (addr + offset)).findIdx? (fun x => x == 0) with
    | some i =>
      simp only [hfi] at h ⊢
      have hj8 : j < 8 := by
        have := h
        rw [List.length_take] at this
        simp only [memChunk, List.length_cons, List.length_nil] at this
        omega
      rw [getD_take_lt _ _ _ _ h]
      exact memChunk_getD mem (addr + offset) j hj8
    | none =>
      simp only [hfi] at h ⊢
      have hlen : (memChunk mem (addr + offset)).length = 8 := by simp [memChunk]
      by_cases hj : j < 8
      · rw [getD_append_lt _ _ _ _ (by omega)]
        exact memChunk_getD mem (addr + offset) j hj
      · rw [getD_append_ge _ _ _ _ (by omega), hlen]
        have harr : addr + (offset + 8) + (j - 8) = addr + offset + j := by omega
        have hrest : j - 8 < (rbwn_go (memChunk mem) addr (offset + 8) n).length := by
          rw [List.length_append, hlen] at h
          omega
        rw [ih (offset + 8) (j - 8) hrest, harr]

theorem read_bytes_with_nul_mem_bytes (mem : Nat → Nat) (addr fuel : Nat) :
    ∀ j, j < (read_bytes_with_nul (memChunk mem) addr fuel).length →
      (read_bytes_with_nul (memChunk mem) addr fuel).getD j 0 = mem (addr + j) := by
  intro j h
  by_cases h0 : addr = 0
  · simp [read_bytes_with_nul, h0] at h
  · simp only [read_bytes_with_nul, if_neg h0] at h ⊢
    have := rbwn_go_mem_bytes mem addr fuel 0 j h
    simpa using this

/-- Writing a byte-for-byte prefix of memory back to where it came from
leaves memory unchanged. -/
theorem write_memory_prefix_id (mem : Nat → Nat) (addr : Nat) (data : List Nat)
    (h : ∀ j, j < data.length → data.getD j 0 = mem (addr + j)) :
    write_memory mem addr data = mem := by
  funext a
  simp only [write_memory]
  by_cases hin : addr ≤ a ∧ a < addr + data.length
  · rw [if_pos hin, h (a - addr) (by omega)]
    congr 1
    omega
  · rw [if_neg hin]

/-- `setReg` agrees with `Option.getD`. -/
theorem setReg_eq_getD (cur : Nat) (o : Option Nat) : setReg cur o = o.getD cur := by
  cases o <;> rfl

theorem ptr_array_read_inner (mem : Nat → Nat) (u fuelO fuelI : Nat) :
    (ptr_array_read mem u fuelO fuelI).inner = ptr_array_go mem u fuelI 0 fuelO := rfl

/-- One step of the outer pointer walk. -/
theorem ptr_array_go_succ (mem : Nat → Nat) (u fuelI offset fuelO : Nat) :
    ptr_array_go mem u fuelI offset (fuelO + 1) =
      if read_bytes_with_nul (memChunk mem) (readU64le mem (u + offset)) fuelI = [] then [0]
      else read_bytes_with_nul (memChunk mem) (readU64le mem (u + offset)) fuelI ++
        ptr_array_go mem u fuelI (offset + 8) fuelO := rfl

/-- The outer walk of the `*const *const c_char` reader: if the tracee
array at `u + offset` holds the little-endian pointers `ptrs`, each
pointing at a NUL-terminated string of `strs` (read back with its NUL),
and the element after them is NULL, the walk yields the flat
concatenation of the strings, each with its NUL, plus the extra final
NUL. -/
theorem ptr_array_go_spec (mem : Nat → Nat) (u fuelI : Nat) :
    ∀ (ptrs : List Nat) (strs : List (List Nat)) (offset : Nat),
      ptrs.length = strs.length →
      (∀ i, i < ptrs.length → readU64le mem (u + offset + 8 * i) = ptrs.getD i 0) →
      (∀ i, i < ptrs.length →
        read_bytes_with_nul (memChunk mem) (ptrs.getD i 0) fuelI = strs.getD i [] ++ [0]) →
      readU64le mem (u + offset + 8 * ptrs.length) = 0 →
      ptr_array_go mem u fuelI offset (ptrs.length + 1) =
        (strs.map (fun s => s ++ [0])).flatten ++ [0] := by
  intro ptrs
  induction ptrs with
  | nil =>
    intro strs offset hlen hp hs hterm
    have hstrs : strs = [] := by
      cases strs with
      | nil => rfl
      | cons s ss => simp at hlen
    subst hstrs
    have hterm0 : readU64le mem (u + offset) = 0 := by simpa using hterm
    simp [ptr_array_go, hterm0, read_bytes_with_nul]
  | cons p ps ih =>
    intro strs offset hlen hp hs hterm
    cases strs with
    | nil => simp at hlen
    | cons s ss =>
      have hp0 : readU64le mem (u + offset) = p := by simpa using hp 0 (by simp)
      have hs0 : read_bytes_with_nul (memChunk mem) p fuelI = s ++ [0] := by
        simpa using hs 0 (by simp)
      have hp1 : ∀ i, i < ps.length →
          readU64le mem (u + (offset + 8) + 8 * i) = ps.getD i 0 := by
        intro i hi
        have hh := hp (i + 1) (by simp; omega)
        have harith : u + offset + 8 * (i + 1) = u + (offset + 8) + 8 * i := by ring
        rw [harith] at hh
        simpa using hh
      have hs1 : ∀ i, i < ps.length →
          read_bytes_with_nul (memChunk mem) (ps.getD i 0) fuelI = ss.getD i [] ++ [0] := by
        intro i hi
        have hh := hs (i + 1) (by simp; omega)
        simpa using hh
      have hterm1 : readU64le mem (u + (offset + 8) + 8 * ps.length) = 0 := by
        have harith : u + offset + 8 * (p :: ps).length = u + (offset + 8) + 8 * ps.length := by
          simp [List.length_cons]; ring
        rw [harith] at hterm
        exact hterm
      have ihh := ih ss (offset + 8) (by simpa using hlen) hp1 hs1 hterm1
      have hne : s ++ [0] ≠ [] := by simp
      simp only [List.length_cons]
      rw [ptr_array_go_succ, hp0, hs0, if_neg hne, ihh]
      simp

/-! ### Claims -/

/-- Claim C1: at a syscall-entry stop whose matched pre-hook returns
`Normal r`, `on_stop` overwrites `orig_rax` with the fabricated number
`512 + rnd % 65536` (with `rnd` the random `u16` oracle, so the number lies
in `[512, 512 + 65536)`), stores `(fabricated, r)` in the blocked-call map,
and leaves the rest of the register file alone; at a syscall-exit stop
whose `orig_rax` equals the fabricated number, `on_stop` writes `r` into
`rax`, removes the map entry, and runs no post-hook (the result does not
depend on `post2`, which is universally quantified). -/
theorem c1_blocked_call_roundtrip (st st2 : List (Nat × Nat)) (regs regsE regs2 : Regs)
    (r rnd rnd2 : Nat) (post post2 : Option (Nat → Nat)) (pre2 : Option ReturnVariantWrapper)
    (henter : on_stop st regs .syscallEnter (some (.Normal r)) post rnd = (st2, regsE))
    (hexit : regs2.orig_rax = 512 + rnd % 65536) :
    regsE = { regs with orig_rax := 512 + rnd % 65536 } ∧
    512 ≤ 512 + rnd % 65536 ∧ 512 + rnd % 65536 < 512 + 65536 ∧
    mapLookup st2 (512 + rnd % 65536) = some r ∧
    on_stop st2 regs2 .syscallExit pre2 post2 rnd2 =
      (mapErase st2 regs2.orig_rax, { regs2 with rax := r }) ∧
    mapLookup (mapErase st2 regs2.orig_rax) (512 + rnd % 65536) = none := by
  simp only [on_stop, Prod.mk.injEq] at henter
  obtain ⟨hst2, hregsE⟩ := henter
  subst hst2
  subst hregsE
  refine ⟨rfl, by omega, by omega, mapLookup_insert_self st _ r, ?_, ?_⟩
  · simp only [on_stop, hexit, mapLookup_insert_self st _ r]
  · rw [hexit]
    exact mapLookup_erase_self _ _

theorem c1_blocked_call_roundtrip_witness :
    mapLookup (mapInsert [] (512 + 7 % 65536) 42) (512 + 7 % 65536) = some 42 ∧
    on_stop (mapInsert [] (512 + 7 % 65536) 42) { regs0 with orig_rax := 519 } .syscallExit
        none (some (fun x => x + 1)) 3 =
      (mapErase (mapInsert [] (512 + 7 % 65536) 42) 519, { regs0 with orig_rax := 519, rax := 42 }) := by
  have h := c1_blocked_call_roundtrip [] (mapInsert [] (512 + 7 % 65536) 42) regs0
    { regs0 with orig_rax := 519 } { regs0 with orig_rax := 519 } 42 7 3
    none (some (fun x => x + 1)) none (by decide) (by decide)
  exact ⟨h.2.2.2.1, h.2.2.2.2.1⟩

/-- Claim C2 counterexample: with a live blocked entry `(512, 10)` and the
random oracle returning `0`, the fabricated number `512 + 0 % 65536 = 512`
equals a live key, and `on_stop` inserts without resampling, overwriting
the outstanding entry (its stored return value 10 is replaced by 99). -/
theorem c2_collision_overwrites_counterexample :
    mapLookup [(512, 10)] (512 + 0 % 65536) = some 10 ∧
    (on_stop [(512, 10)] regs0 .syscallEnter (some (.Normal 99)) none 0).1 = [(512, 99)] ∧
    mapLookup (on_stop [(512, 10)] regs0 .syscallEnter (some (.Normal 99)) none 0).1 512 =
      some 99 := by
  exact ⟨by decide, by decide, by decide⟩

/-- Claim C2 (amended): the tracer inserts `512 + rnd % 65536` with no
collision check (no resampling); provided the fabricated number is not a
currently live key, the insertion overwrites no outstanding entry: the new
entry is present, every other key reads as before, and every live entry is
still live. -/
theorem c2_no_collision_preserves_entries (st : List (Nat × Nat)) (regs : Regs)
    (r rnd : Nat) (post : Option (Nat → Nat))
    (h : mapLookup st (512 + rnd % 65536) = none) :
    mapLookup (on_stop st regs .syscallEnter (some (.Normal r)) post rnd).1
      (512 + rnd % 65536) = some r ∧
    (∀ k, k ≠ 512 + rnd % 65536 →
      mapLookup (on_stop st regs .syscallEnter (some (.Normal r)) post rnd).1 k =
        mapLookup st k) ∧
    (∀ k v, mapLookup st k = some v →
      mapLookup (on_stop st regs .syscallEnter (some (.Normal r)) post rnd).1 k = some v) := by
  refine ⟨?_, ?_, ?_⟩
  · simp only [on_stop]
    exact mapLookup_insert_self st _ r
  · intro k hk
    simp only [on_stop]
    exact mapLookup_insert_ne st _ r k hk
  · intro k v hv
    by_cases hk : k = 512 + rnd % 65536
    · rw [hk] at hv
      rw [hv] at h
      exact absurd h (by simp)
    · simp only [on_stop]
      rw [mapLookup_insert_ne st _ r k hk]
      exact hv

theorem c2_no_collision_preserves_entries_witness :
    mapLookup (on_stop [(7, 1)] regs0 .syscallEnter (some (.Normal 5)) none 3).1
      (512 + 3 % 65536) = some 5 ∧
    mapLookup (on_stop [(7, 1)] regs0 .syscallEnter (some (.Normal 5)) none 3).1 7 = some 1 := by
  obtain ⟨h1, h2, h3⟩ :=
    c2_no_collision_preserves_entries [(7, 1)] regs0 5 3 none (by decide)
  exact ⟨h1, h3 7 1 (by decide)⟩

/-- Claim C3: at a `PackedArgs` entry stop, each `Some v` slot overwrites
exactly its argument register in the syscall ABI order
`rdi, rsi, rdx, r10, r8, r9`, each `None` slot leaves its register at the
original value, no other register (`orig_rax`, `rax`, `rip`) changes and
the blocked-call map is untouched; in particular `PackedArgs` with only
the third slot `Some v` changes only `rdx`. -/
theorem c3_packed_args_register_frame (st : List (Nat × Nat)) (regs : Regs)
    (o1 o2 o3 o4 o5 o6 : Option Nat) (post : Option (Nat → Nat)) (rnd v : Nat) :
    (on_stop st regs .syscallEnter (some (.PackedArgs (o1, o2, o3, o4, o5, o6))) post rnd).1 =
      st ∧
    (on_stop st regs .syscallEnter (some (.PackedArgs (o1, o2, o3, o4, o5, o6))) post rnd).2 =
      { regs with
        rdi := o1.getD regs.rdi
        rsi := o2.getD regs.rsi
        rdx := o3.getD regs.rdx
        r10 := o4.getD regs.r10
        r8 := o5.getD regs.r8
        r9 := o6.getD regs.r9 } ∧
    (on_stop st regs .syscallEnter
        (some (.PackedArgs (none, none, some v, none, none, none))) post rnd).2 =
      { regs with rdx := v } := by
  refine ⟨rfl, ?_, ?_⟩
  · simp only [on_stop, setReg_eq_getD]
  · simp only [on_stop, setReg]

/-- Claim C4: when the hook returns the mirror's own buffer pointer
(in-place case, `v = selfPtr`), the writeback writes the host-side mirror
bytes to the original tracee address and returns that address as the new
register value; the tracee memory then equals the mirror byte for byte on
the written range; and when the mirror is exactly what
`read_bytes_with_nul` produced from that address (the unmodified case),
the tracee memory is left unchanged byte for byte. -/
theorem c4_inplace_cstring_writeback (mem : Nat → Nat) (rm : RemoteMem)
    (hostMem : Nat → Nat) (selfPtr hostFuel addr fuel : Nat) (mbp : MayBePtr) :
    mbp_write mbp mem rm hostMem selfPtr hostFuel (some selfPtr) =
      some (write_memory mem mbp.origin mbp.inner, rm, some mbp.origin) ∧
    (∀ j, j < mbp.inner.length →
      write_memory mem mbp.origin mbp.inner (mbp.origin + j) = mbp.inner.getD j 0) ∧
    (mbp = ptr_read (memChunk mem) addr fuel →
      write_memory mem mbp.origin mbp.inner = mem) := by
  refine ⟨by simp [mbp_write], ?_, ?_⟩
  · intro j hj
    simp only [write_memory]
    rw [if_pos (by omega)]
    congr 1
    omega
  · intro hm
    subst hm
    exact write_memory_prefix_id mem addr _ (read_bytes_with_nul_mem_bytes mem addr fuel)

/-- A tiny concrete tracee memory holding the C-string "AB" at address 10. -/
def mem0 : Nat → Nat := fun a => if a = 10 then 65 else if a = 11 then 66 else 0

theorem c4_inplace_cstring_writeback_witness :
    write_memory mem0 (ptr_read (memChunk mem0) 10 1).origin
      (ptr_read (memChunk mem0) 10 1).inner = mem0 :=
  (c4_inplace_cstring_writeback mem0 ⟨0, 0, MEM_BLOCK_SIZE⟩ (fun _ => 0) 0 0 10 1
    (ptr_read (memChunk mem0) 10 1)).2.2 rfl

/-- Claim C5: the `*const *const c_char` reader walks the tracee array one
8-byte little-endian pointer at a time; given that the array at `u` holds
the pointers `ptrs` followed by a NULL entry, and that slurping each
pointer yields the NUL-terminated string `strs[i]` (stated with its NUL
appended), the host mirror is the concatenation of the strings, each
followed by its NUL, with one extra trailing NUL byte, and the mirror's
origin is the array address `u`. -/
theorem c5_argv_flat_buffer (mem : Nat → Nat) (u fuelI : Nat)
    (ptrs : List Nat) (strs : List (List Nat))
    (hlen : ptrs.length = strs.length)
    (hp : ∀ i, i < ptrs.length → readU64le mem (u + 8 * i) = ptrs.getD i 0)
    (hs : ∀ i, i < ptrs.length →
      read_bytes_with_nul (memChunk mem) (ptrs.getD i 0) fuelI = strs.getD i [] ++ [0])
    (hterm : readU64le mem (u + 8 * ptrs.length) = 0) :
    (ptr_array_read mem u (ptrs.length + 1) fuelI).inner =
      (strs.map (fun s => s ++ [0])).flatten ++ [0] ∧
    (ptr_array_read mem u (ptrs.length + 1) fuelI).origin = u := by
  refine ⟨?_, rfl⟩
  have h1 : ∀ i, i < ptrs.length → readU64le mem (u + 0 + 8 * i) = ptrs.getD i 0 := by
    intro i hi
    simpa using hp i hi
  have h2 : readU64le mem (u + 0 + 8 * ptrs.length) = 0 := by simpa using hterm
  rw [ptr_array_read_inner]
  exact ptr_array_go_spec mem u fuelI ptrs strs 0 hlen h1 hs h2

/-- The execve example laid out in a concrete tracee memory at base 100:
three little-endian pointers 132, 135, 138, a NULL entry, then the strings
"sh", "-c", "echo hi" (ASCII), each NUL-terminated. -/
def argvBytes : List Nat :=
  [132, 0, 0, 0, 0, 0, 0, 0,
   135, 0, 0, 0, 0, 0, 0, 0,
   138, 0, 0, 0, 0, 0, 0, 0,
   0, 0, 0, 0, 0, 0, 0, 0,
   115, 104, 0,
   45, 99, 0,
   101, 99, 104, 111, 32, 104, 105, 0]

def memOfList (l : List Nat) (base : Nat) : Nat → Nat :=
  fun a => if base ≤ a ∧ a < base + l.length then l.getD (a - base) 0 else 0

def memE : Nat → Nat := memOfList argvBytes 100

theorem c5_argv_flat_buffer_witness :
    (ptr_array_read memE 100 (([132, 135, 138] : List Nat).length + 1) 1).inner =
      (([[115, 104], [45, 99], [101, 99, 104, 111, 32, 104, 105]] : List (List Nat)).map
        (fun s => s ++ [0])).flatten ++ [0] ∧
    (ptr_array_read memE 100 (([132, 135, 138] : List Nat).length + 1) 1).origin = 100 :=
  c5_argv_flat_buffer memE 100 1 [132, 135, 138]
    [[115, 104], [45, 99], [101, 99, 104, 111, 32, 104, 105]]
    (by decide) (by decide) (by decide) (by decide)

/-- Claim C6: `alloc_remote_mem` checks the wrap condition only after
computing the returned address, so a sequence of allocations whose sizes
sum exactly to `MEM_BLOCK_SIZE` leaves `offset = MEM_BLOCK_SIZE`, and the
next allocation returns `base + MEM_BLOCK_SIZE`, one past the remote
block: the claimed invariant "every returned address lies in
`[base, base + MAX)`" fails.  Here with `base = 0`: `alloc 8192` from the
fresh state returns 0 and sets `offset = 8192`; the following `alloc 1`
returns 8192, and `8192 < 0 + MEM_BLOCK_SIZE` is false. -/
theorem c6_alloc_wrap_escapes_block :
    alloc_remote_mem ⟨0, 0, MEM_BLOCK_SIZE⟩ 8192 = some (0, ⟨0, 8192, MEM_BLOCK_SIZE⟩) ∧
    alloc_remote_mem ⟨0, 8192, MEM_BLOCK_SIZE⟩ 1 = some (8192, ⟨0, 0, MEM_BLOCK_SIZE⟩) ∧
    ¬ (8192 < 0 + MEM_BLOCK_SIZE) := by
  exact ⟨by decide, by decide, by decide⟩

/-- Claim C7: every allocation with `size ≤ MEM_BLOCK_SIZE = 8192`
(including exactly 8192) returns the address `base + offset` without
error, and every allocation with `size > MEM_BLOCK_SIZE` is the fatal
`panic!`, modelled as `none`. -/
theorem c7_alloc_size_boundary (base offset size : Nat) :
    (size ≤ MEM_BLOCK_SIZE →
      ∃ rm, alloc_remote_mem ⟨base, offset, MEM_BLOCK_SIZE⟩ size = some (base + offset, rm)) ∧
    (MEM_BLOCK_SIZE < size →
      alloc_remote_mem ⟨base, offset, MEM_BLOCK_SIZE⟩ size = none) := by
  constructor
  · intro h
    have hns : ¬ size > MEM_BLOCK_SIZE := by omega
    by_cases hw : offset + size > MEM_BLOCK_SIZE
    · exact ⟨⟨base, 0, MEM_BLOCK_SIZE⟩, by simp [alloc_remote_mem, hns, hw]⟩
    · exact ⟨⟨base, offset + size, MEM_BLOCK_SIZE⟩, by simp [alloc_remote_mem, hns, hw]⟩
  · intro h
    have hs2 : size > MEM_BLOCK_SIZE := h
    simp [alloc_remote_mem, hs2]

theorem c7_alloc_size_boundary_witness :
    (∃ rm, alloc_remote_mem ⟨0, 0, MEM_BLOCK_SIZE⟩ 8192 = some (0 + 0, rm)) ∧
    alloc_remote_mem ⟨0, 0, MEM_BLOCK_SIZE⟩ 8193 = none :=
  ⟨(c7_alloc_size_boundary 0 0 8192).1 (by decide),
   (c7_alloc_size_boundary 0 0 8193).2 (by decide)⟩

/-- Claim C8 counterexample: when every read of the discovery file fails,
the retry loop of `RemoteMem::new` performs seven read attempts (the
initial one plus six retries, because the `i32` counter starts at 5 and
the loop retries while `retry >= 0`) before the fatal abort — not at most
six as claimed. -/
theorem c8_seven_attempts_counterexample :
    remote_mem_new (fun _ => none) = (none, 7) ∧ ¬ (7 ≤ 6) := by
  exact ⟨by decide, by decide⟩

/-- Claim C8 (amended): when the discovery-file read always fails, the
read is retried six times with 50 ms between attempts, and after the six
retries fail the interceptor aborts, so exactly seven read attempts occur
before the fatal abort. -/
theorem c8_retry_attempt_count (readAt : Nat → Option Nat)
    (h : ∀ k, readAt k = none) :
    remote_mem_new readAt = (none, 7) := by
  simp [remote_mem_new, rm_new_go, h]

theorem c8_retry_attempt_count_witness :
    remote_mem_new (fun _ => none) = (none, 7) :=
  c8_retry_attempt_count (fun _ => none) (fun _ => rfl)

/-- Claim C9 counterexample: the register round-trip of `not_ptr_impl!` is
not the identity for every supported integer type at every 64-bit register
value: for `i32` at `u = 2 ^ 31` the read truncates and reinterprets as a
negative value, and the writeback sign-extends, giving
`2 ^ 64 - 2 ^ 31 ≠ 2 ^ 31`. -/
theorem c9_i32_roundtrip_counterexample :
    i32_write (i32_read 2147483648) ≠ 2147483648 ∧ (2147483648 : Nat) < 2 ^ 64 := by
  exact ⟨by decide, by decide⟩

/-- Claim C9 (amended): the register round-trip (read the raw register
value `u` into the mirror with `u as T`, write back the unmodified mirror
with `as u64`) is the identity for the 64-bit integer types `i64`, `u64`,
`isize`, `usize` at every register value `u < 2 ^ 64`.  For a narrower
unsigned type of width `w` it yields the zero-extended truncated value
`u % 2 ^ w`, which equals `u` exactly when `u < 2 ^ w`; for a narrower
signed type of width `w` it yields the truncated value sign-extended to
64 bits (`signExtend64 w (u % 2 ^ w)`), which equals `u` exactly when `u`
is itself a proper sign-extension, i.e. `u < 2 ^ (w - 1)` or
`2 ^ 64 - 2 ^ (w - 1) ≤ u` — in particular `i32` at `u = 2 ^ 31` yields
`2 ^ 64 - 2 ^ 31 ≠ u`. -/
theorem c9_integer_roundtrip (u : Nat) (h : u < 2 ^ 64) :
    (u64_write (u64_read u) = u ∧ usize_write (usize_read u) = u ∧
     i64_write (i64_read u) = u ∧ isize_write (isize_read u) = u) ∧
    (u8_write (u8_read u) = u % 2 ^ 8 ∧
     u16_write (u16_read u) = u % 2 ^ 16 ∧
     u32_write (u32_read u) = u % 2 ^ 32) ∧
    ((u8_write (u8_read u) = u ↔ u < 2 ^ 8) ∧
     (u16_write (u16_read u) = u ↔ u < 2 ^ 16) ∧
     (u32_write (u32_read u) = u ↔ u < 2 ^ 32)) ∧
    (i8_write (i8_read u) = signExtend64 8 (u % 2 ^ 8) ∧
     i16_write (i16_read u) = signExtend64 16 (u % 2 ^ 16) ∧
     i32_write (i32_read u) = signExtend64 32 (u % 2 ^ 32)) ∧
    ((i8_write (i8_read u) = u ↔ (u < 2 ^ 7 ∨ 2 ^ 64 - 2 ^ 7 ≤ u)) ∧
     (i16_write (i16_read u) = u ↔ (u < 2 ^ 15 ∨ 2 ^ 64 - 2 ^ 15 ≤ u)) ∧
     (i32_write (i32_read u) = u ↔ (u < 2 ^ 31 ∨ 2 ^ 64 - 2 ^ 31 ≤ u))) := by
  refine ⟨⟨?_, ?_, ?_, ?_⟩, ⟨?_, ?_, ?_⟩, ⟨?_, ?_, ?_⟩, ⟨?_, ?_, ?_⟩, ⟨?_, ?_, ?_⟩⟩
  · simp only [u64_write, u64_read]
    omega
  · simp only [usize_write, usize_read]
    omega
  · simp only [i64_write, i64_read, toSigned, toU64]
    split <;> omega
  · simp only [isize_write, isize_read, toSigned, toU64]
    split <;> omega
  · simp only [u8_write, u8_read]
    omega
  · simp only [u16_write, u16_read]
    omega
  · simp only [u32_write, u32_read]
    omega
  · simp only [u8_write, u8_read]
    omega
  · simp only [u16_write, u16_read]
    omega
  · simp only [u32_write, u32_read]
    omega
  · simp only [i8_write, i8_read, toSigned, toU64, signExtend64]
    split <;> omega
  · simp only [i16_write, i16_read, toSigned, toU64, signExtend64]
    split <;> omega
  · simp only [i32_write, i32_read, toSigned, toU64, signExtend64]
    split <;> omega
  · simp only [i8_write, i8_read, toSigned, toU64]
    split <;> omega
  · simp only [i16_write, i16_read, toSigned, toU64]
    split <;> omega
  · simp only [i32_write, i32_read, toSigned, toU64]
    split <;> omega

theorem c9_integer_roundtrip_witness :
    u64_write (u64_read 2147483648) = 2147483648 ∧
    i32_write (i32_read 2147483648) = signExtend64 32 (2147483648 % 2 ^ 32) ∧
    (i32_write (i32_read 2147483648) = 2147483648 ↔
      (2147483648 < 2 ^ 31 ∨ 2 ^ 64 - 2 ^ 31 ≤ 2147483648)) := by
  obtain ⟨h1, h2, h3, h4, h5⟩ := c9_integer_roundtrip 2147483648 (by decide)
  exact ⟨h1.1, h4.2.2, h5.2.2⟩

/-- Claim C10: for a C-string argument whose register value is 0, the
reader performs no tracee-memory access (the result does not depend on the
read oracle at all) and produces the empty mirror with origin 0, so the
hook receives a zero-length local buffer; likewise, when the very first
8-byte read at a non-NULL address fails (`readChunk u = []`), the mirror
is empty (with the address as origin). -/
theorem c10_null_pointer_empty_mirror :
    (∀ (rc rc2 : Nat → List Nat) (fuel : Nat),
      read_bytes_with_nul rc 0 fuel = read_bytes_with_nul rc2 0 fuel) ∧
    (∀ (rc : Nat → List Nat) (fuel : Nat), ptr_read rc 0 fuel = ⟨[], 0⟩) ∧
    (∀ (rc : Nat → List Nat) (u fuel : Nat), u ≠ 0 → rc u = [] →
      ptr_read rc u fuel = ⟨[], u⟩) := by
  refine ⟨?_, ?_, ?_⟩
  · intro rc rc2 fuel
    simp [read_bytes_with_nul]
  · intro rc fuel
    simp [ptr_read, read_bytes_with_nul]
  · intro rc u fuel hu hr
    simp only [ptr_read, read_bytes_with_nul, if_neg hu, MayBePtr.mk.injEq, and_true]
    cases fuel with
    | zero => rfl
    | succ n =>
      simp only [rbwn_go, Nat.add_zero, hr]
      simp

theorem c10_null_pointer_empty_mirror_witness :
    ptr_read (fun _ => ([] : List Nat)) 5 3 = ⟨[], 5⟩ :=
  c10_null_pointer_empty_mirror.2.2 (fun _ => []) 5 3 (by decide) rfl
